import Mathlib

/-!
# Verification of the QuSmoke example notebook

Shallow embedding of the helper functions of
`examples/mindspore_qnn_for_nlp.ipynb` (a quantum CBOW word-embedding
demo) and proofs of the specified properties.

Conventions of the embedding:
* Python strings are Lean `String`s (or `List Char` while being built).
* Python lists are Lean `List`s; an insertion-ordered Python `dict` is an
  association list.
* Rotation angles: the notebook only ever produces the float angles
  `int(bit) * np.pi` with `bit ∈ {0, 1}`.  An angle is therefore recorded
  by its integer coefficient of π: the entry `1` stands for the float
  `np.pi`, the entry `0` for the float `0.0`; an entry is nonzero exactly
  when the represented angle is nonzero, because π ≠ 0.
* `np.int32(np.ceil(np.log2 x))` for a positive integer `x` is `Nat.clog 2 x`.
-/

set_option linter.unusedVariables false

namespace QuSmoke

/-- Little-endian binary digit characters of a natural number (empty for
`0`).  For `v ≥ 1` this is exactly the digit part of Python's `bin(v)`
reversed. -/
def binLE : Nat → List Char
  | 0 => []
  | n + 1 => (if (n + 1) % 2 = 1 then '1' else '0') :: binLE ((n + 1) / 2)
termination_by n => n
decreasing_by exact Nat.div_lt_self (Nat.succ_pos n) (by omega)

/-- Python `bin(v)`: the characters `0b` followed by the big-endian binary
digits (`bin(0) = "0b0"`). -/
def pyBin (v : Nat) : List Char :=
  '0' :: 'b' :: (if v = 0 then ['0'] else (binLE v).reverse)

/-- Python slice `s[-1:1:-1]`: the characters from the last one down to
(and including) index 2, i.e. the reversal of `s` with its first two
characters removed. -/
def sliceRev (s : List Char) : List Char := (s.drop 2).reverse

/-- Python `s.ljust(n, c)`: pad on the right with `c` up to length `n`. -/
def ljust (s : List Char) (n : Nat) (c : Char) : List Char :=
  s ++ List.replicate (n - s.length) c

/-- `label_bin = bin(label)[-1:1:-1].ljust(n_qubits, '0')` (notebook
cells 12 and 14). -/
def labelBin (v n : Nat) : List Char := ljust (sliceRev (pyBin v)) n '0'

/-- Python `int(c)` on the characters `'0'`/`'1'` appearing in a binary
string. -/
def pyInt (c : Char) : Nat := if c = '1' then 1 else 0

/-- `label_array = [int(i)*np.pi for i in label_bin]`, in units of π (see
the header comment: entry `1` is the float `np.pi`, entry `0` the float
`0.0`). -/
def labelArray (v n : Nat) : List Nat := (labelBin v n).map pyInt

/-- Value of an angle list read as a little-endian binary number: a
nonzero entry at position `j` counts as bit `j`. -/
def decodeLE : List Nat → Nat
  | [] => 0
  | a :: l => (if a ≠ 0 then 1 else 0) + 2 * decodeLE l

/-- Helper of `pySplit`: the accumulator holds the characters of the token
currently being read, in reverse. -/
def pySplitAux : List Char → List Char → List String
  | [], acc => if acc.isEmpty then [] else [String.mk acc.reverse]
  | c :: cs, acc =>
    if c.isWhitespace then
      if acc.isEmpty then pySplitAux cs []
      else String.mk acc.reverse :: pySplitAux cs []
    else pySplitAux cs (c :: acc)

/-- Python `corpus.split()`: split on runs of whitespace, dropping empty
tokens. -/
def pySplit (s : String) : List String := pySplitAux s.data []

/-- Python `enumerate`, starting at index `i`. -/
def pyEnumFrom (i : Nat) : List α → List (Nat × α)
  | [] => []
  | a :: as => (i, a) :: pyEnumFrom (i + 1) as

/-- Python `enumerate(l)`. -/
def pyEnum (l : List α) : List (Nat × α) := pyEnumFrom 0 l

/-- Python slice `l[a:-b]` for nonnegative `a`, `b` (note `l[a:-0]` is
`l[a:0]`, the empty list). -/
def pySliceNeg (l : List α) (a b : Nat) : List α :=
  if b = 0 then [] else (l.take (l.length - b)).drop a

/-- `GenerateWordDictAndSample` (notebook cell 6): the word dictionary
(sorted distinct tokens enumerated from 0) and the list of
(context-words, center-word) samples obtained by sliding a window of
half-width `window` over the token list. -/
def GenerateWordDictAndSample (corpus : String) (window : Nat) :
    List (String × Nat) × List (List String × String) :=
  let all_words := pySplit corpus
  let word_set := all_words.dedup.insertionSort (· ≤ ·)
  let word_dict := (pyEnum word_set).map (fun p => (p.2, p.1))
  let sampling := (List.range (pySliceNeg all_words window window).length).map
    (fun index =>
      (((List.range' index (2 * window + 1)).filter
          (fun i => i != index + window)).map (fun i => all_words.getD i ""),
        all_words.getD (index + window) ""))
  (word_dict, sampling)

/-- Python `max(word_dict.values())` (`0` for the empty dictionary, where
Python raises `ValueError` instead). -/
def maxIds (d : List (String × Nat)) : Nat := (d.map Prod.snd).foldr max 0

/-- `word_dict[w]`: first binding of `w` (`0` when absent, where Python
raises `KeyError` instead). -/
def dictGet (d : List (String × Nat)) (w : String) : Nat :=
  (List.lookup w d).getD 0

/-- `n_qubits = np.int32(np.ceil(np.log2(1 + max(word_dict.values()))))`. -/
def nQubitsOf (d : List (String × Nat)) : Nat := Nat.clog 2 (1 + maxIds d)

/-- `GenerateTrainData` (notebook cell 14): one feature row per sample,
the concatenation of the binary-encoded context-word ids, and the label
list of center-word ids.  Angles are in units of π. -/
def GenerateTrainData (sample : List (List String × String))
    (d : List (String × Nat)) : List (List Nat) × List Nat :=
  let n := nQubitsOf d
  (sample.map (fun s => (s.1.map (fun word => labelArray (dictGet d word) n)).flatten),
    sample.map (fun s => dictGet d s.2))

/-- Little-endian decimal digits of a natural number (empty for `0`). -/
def digitsLE : Nat → List Nat
  | 0 => []
  | n + 1 => (n + 1) % 10 :: digitsLE ((n + 1) / 10)
termination_by n => n
decreasing_by exact Nat.div_lt_self (Nat.succ_pos n) (by omega)

/-- Python `str(n)` for a natural number, as a character list. -/
def strChars (n : Nat) : List Char :=
  if n = 0 then ['0'] else ((digitsLE n).map Nat.digitChar).reverse

/-- Python `str(n)` for a natural number. -/
def str10 (n : Nat) : String := String.mk (strChars n)

/-- Modelled from the spec: the notebook imports the gate constructors
`RX`, `RY`, `X`, `H` from the repository's quantum-simulator module
`gates`, which is not part of this artifact.  A gate is recorded
abstractly by its constructor, parameter name and qubit positions:
`RX p i` / `RY p i` are the parameterised rotations `RX(p).on(i)` /
`RY(p).on(i)`, `X t c` is `X(t, c)` (target `t`, control `c`), and `H i`
is the Hadamard gate on qubit `i`. -/
inductive Gate where
  | RX : String → Nat → Gate
  | RY : String → Nat → Gate
  | X : Nat → Nat → Gate
  | H : Nat → Gate
deriving DecidableEq

/-- Modelled from the spec: a gate as recorded inside a circuit together
with the two markers the notebook manipulates — whether the gate belongs
to an encoder sub-circuit (`as_encoder` vs `as_ansatz`) and whether it is
excluded from gradient computation (`no_grad`). -/
structure PGate where
  gate : Gate
  encoder : Bool
  noGrad : Bool
deriving DecidableEq

/-- Modelled from the spec: `Circuit` from the repository's `circuit`
module (not part of this artifact), recorded as the ordered list of gates
appended to it. -/
structure Circuit where
  gates : List PGate
deriving DecidableEq

/-- `Circuit()`. -/
def Circuit.empty : Circuit := ⟨[]⟩

/-- `circ += gate`. -/
def Circuit.add (c : Circuit) (g : Gate) : Circuit :=
  ⟨c.gates ++ [⟨g, false, false⟩]⟩

/-- `circ += other_circuit`. -/
def Circuit.append (c d : Circuit) : Circuit := ⟨c.gates ++ d.gates⟩

/-- Modelled from the spec: `as_encoder` marks the circuit's gates as
encoder gates. -/
def Circuit.as_encoder (c : Circuit) : Circuit :=
  ⟨c.gates.map (fun p => { p with encoder := true })⟩

/-- Modelled from the spec: `as_ansatz` marks the circuit's gates as
ansatz gates. -/
def Circuit.as_ansatz (c : Circuit) : Circuit :=
  ⟨c.gates.map (fun p => { p with encoder := false })⟩

/-- Modelled from the spec: `no_grad` excludes every gate of the circuit
from gradient computation. -/
def Circuit.no_grad (c : Circuit) : Circuit :=
  ⟨c.gates.map (fun p => { p with noGrad := true })⟩

/-- Modelled from the spec: `UN(H, n)` applies `H` to each of the qubits
`0, …, n-1`. -/
def UNH (n : Nat) : Circuit :=
  ⟨(List.range n).map (fun i => ⟨Gate.H i, false, false⟩)⟩

/-- `if prefix and prefix[-1] != '_': prefix += '_'` (cells 9 and 17). -/
def normPfx (p : String) : String :=
  if p ≠ "" ∧ p.data.getLast? ≠ some '_' then p ++ "_" else p

/-- `GenerateEncoderCircuit` (notebook cell 9). -/
def GenerateEncoderCircuit (n_qubits : Nat) (pfx : String) : Circuit :=
  let p := normPfx pfx
  ((List.range n_qubits).foldl
    (fun circ i => circ.add (Gate.RX (p ++ str10 i) i)) Circuit.empty).as_encoder

/-- Python `range(a, b, 2)`. -/
def pyRange2 (a b : Nat) : List Nat := List.range' a ((b - a + 1) / 2) 2

/-- `GenerateAnsatzCircuit` (notebook cell 17). -/
def GenerateAnsatzCircuit (n_qubits layers : Nat) (pfx : String) : Circuit :=
  let p := normPfx pfx
  ((List.range layers).foldl
    (fun circ l =>
      let circ := (List.range n_qubits).foldl
        (fun c i => c.add (Gate.RY (p ++ str10 l ++ "_" ++ str10 i) i)) circ
      (pyRange2 (l % 2) n_qubits).foldl
        (fun c i =>
          if i < n_qubits ∧ i + 1 < n_qubits then c.add (Gate.X (i + 1) i) else c)
        circ)
    Circuit.empty).as_ansatz

/-- Python dict insertion `d[k] = v` on an insertion-ordered association
list: overwrite in place if the key is present, else append. -/
def pyDictInsert (d : List (String × ℚ)) (k : String) (v : ℚ) :
    List (String × ℚ) :=
  if d.any (fun p => p.1 == k) then
    d.map (fun p => if p.1 = k then (p.1, v) else p)
  else d ++ [(k, v)]

/-- The string `s` accumulated for index `i` in `GenerateEmbeddingHamiltonian`
before `strip`: `'Z' + str(j) + ' '` for every position `j` of a `'1'` in
`bin(i + 1)[-1:1:-1]`. -/
def hamKeyRaw (i : Nat) : List Char :=
  ((pyEnum (sliceRev (pyBin (i + 1)))).filter (fun p => p.2 == '1')).foldl
    (fun s p => s ++ ('Z' :: (strChars p.1 ++ [' ']))) []

/-- Python `str.strip()` (only ASCII whitespace occurs here). -/
def pyStrip (l : List Char) : List Char :=
  ((l.dropWhile Char.isWhitespace).reverse.dropWhile Char.isWhitespace).reverse

/-- The key stored for index `i` by `GenerateEmbeddingHamiltonian`. -/
def hamKey (i : Nat) : String := String.mk (pyStrip (hamKeyRaw i))

/-- `GenerateEmbeddingHamiltonian` (notebook cell 20).  The `n_qubits`
argument is accepted and never used, exactly as in the source. -/
def GenerateEmbeddingHamiltonian (dims n_qubits : Nat) : List (String × ℚ) :=
  (List.range dims).foldl (fun hams i => pyDictInsert hams (hamKey i) 1) []

/-- `QEmbedding` (notebook cell 23).  The `embedding_dim` argument is
accepted and never used, exactly as in the source; the initial
`Circuit()` is discarded by the reassignment to `UN(H, n_qubits)`; the
parameter-name lists collected in the loop do not affect the returned
circuit and are omitted. -/
def QEmbedding (num_embedding embedding_dim window layers : Nat) : Circuit :=
  let n_qubits := Nat.clog 2 num_embedding
  let circ := Circuit.empty
  let circ := UNH n_qubits
  (List.range (2 * window)).foldl
    (fun circ w =>
      let encoder := GenerateEncoderCircuit n_qubits ("Encoder_" ++ str10 w)
      let ansatz := GenerateAnsatzCircuit n_qubits layers ("Ansatz_" ++ str10 w)
      let encoder := encoder.no_grad
      (circ.append encoder).append ansatz)
    circ

/-- Positions of the set bits of `v`, in increasing order: the positions
`j` whose character in the little-endian binary string of `v` is `'1'`. -/
def bitIndices (v : Nat) : List Nat :=
  ((pyEnum (binLE v)).filter (fun p => p.2 == '1')).map Prod.fst

/-- The token list `'Z' + str(j) + ' '` concatenated over `l`. -/
def zTokens (l : List Nat) : List Char :=
  (l.map (fun j => 'Z' :: (strChars j ++ [' ']))).flatten

/-- Specification-side form of the Hamiltonian key for index `i`: the
space-separated concatenation of `Z` + `str(j)` over the set bits `j` of
`i + 1` in little-endian bit order. -/
def specKey (i : Nat) : String :=
  String.mk (List.intercalate [' ']
    ((bitIndices (i + 1)).map (fun j => 'Z' :: strChars j)))

/-- Natural number with the given set-bit positions. -/
def bitVal (l : List Nat) : Nat := (l.map (fun j => 2 ^ j)).sum

/-! ## Lemmas about the binary encoding -/

lemma binLE_succ (n : Nat) :
    binLE (n + 1) = (if (n + 1) % 2 = 1 then '1' else '0') :: binLE ((n + 1) / 2) := by
  rw [binLE]

lemma sliceRev_pyBin (v : Nat) :
    sliceRev (pyBin v) = if v = 0 then ['0'] else binLE v := by
  unfold sliceRev pyBin
  split <;> simp

lemma binLE_getD (v : Nat) : ∀ j, (binLE v).getD j '0' = if v.testBit j then '1' else '0' := by
  induction v using Nat.strong_induction_on with
  | _ v ih =>
    match v with
    | 0 => intro j; simp [binLE]
    | n + 1 =>
      intro j
      rw [binLE_succ]
      match j with
      | 0 =>
        simp only [List.getD_cons_zero, Nat.testBit_zero]
        rcases Nat.mod_two_eq_zero_or_one (n + 1) with h | h <;> simp [h]
      | j + 1 =>
        simp only [List.getD_cons_succ, Nat.testBit_add_one]
        exact ih ((n + 1) / 2) (Nat.div_lt_self (Nat.succ_pos n) (by omega)) j

lemma binLE_length_le {v n : Nat} (h : v < 2 ^ n) : (binLE v).length ≤ n := by
  induction n generalizing v with
  | zero =>
    interval_cases v
    simp [binLE]
  | succ n ihn =>
    match v with
    | 0 => simp [binLE]
    | v + 1 =>
      rw [binLE_succ]
      simp only [List.length_cons, Nat.add_le_add_iff_right]
      exact ihn (by omega)

lemma decodeLE_binLE (v : Nat) : decodeLE ((binLE v).map pyInt) = v := by
  induction v using Nat.strong_induction_on with
  | _ v ih =>
    match v with
    | 0 => simp [binLE, decodeLE]
    | n + 1 =>
      rw [binLE_succ]
      have hlt : (n + 1) / 2 < n + 1 := Nat.div_lt_self (Nat.succ_pos n) (by omega)
      have hrec := ih ((n + 1) / 2) hlt
      rcases Nat.mod_two_eq_zero_or_one (n + 1) with h | h <;>
        simp only [h, List.map_cons, decodeLE, pyInt, hrec] <;>
        simp <;> omega

lemma decodeLE_append (a b : List Nat) :
    decodeLE (a ++ b) = decodeLE a + 2 ^ a.length * decodeLE b := by
  induction a with
  | nil => simp [decodeLE]
  | cons x xs ihx =>
    simp only [List.cons_append, decodeLE, List.append_eq, ihx, List.length_cons]
    ring

lemma decodeLE_replicate_zero (k : Nat) : decodeLE (List.replicate k 0) = 0 := by
  induction k with
  | zero => simp [decodeLE]
  | succ k ihk => simp [List.replicate_succ, decodeLE, ihk]

lemma getD_replicate_self (c : Char) (k : Nat) :
    ∀ j, (List.replicate k c).getD j c = c := by
  induction k with
  | zero => intro j; simp
  | succ k ihk =>
    intro j
    match j with
    | 0 => simp [List.replicate_succ]
    | j + 1 => simp [List.replicate_succ, ihk j]

lemma getD_append_replicate (xs : List Char) (k : Nat) (c : Char) :
    ∀ j, (xs ++ List.replicate k c).getD j c = xs.getD j c := by
  induction xs with
  | nil => intro j; simp [getD_replicate_self c k j]
  | cons x xs ihx =>
    intro j
    match j with
    | 0 => simp
    | j + 1 => simpa using ihx j

lemma labelBin_getD (v n : Nat) (j : Nat) :
    (labelBin v n).getD j '0' = if v.testBit j then '1' else '0' := by
  unfold labelBin ljust
  rw [getD_append_replicate, sliceRev_pyBin]
  by_cases hv : v = 0
  · subst hv
    simp only [if_pos rfl, Nat.zero_testBit, if_neg (by decide : ¬False = true)]
    match j with
    | 0 => rfl
    | j + 1 => rfl
  · rw [if_neg hv, binLE_getD]

lemma labelBin_length {v n : Nat} (hv : v < 2 ^ n) (hn : 1 ≤ n) :
    (labelBin v n).length = n := by
  unfold labelBin ljust
  have hle : (sliceRev (pyBin v)).length ≤ n := by
    rw [sliceRev_pyBin]
    by_cases h : v = 0
    · simpa [h] using hn
    · rw [if_neg h]; exact binLE_length_le hv
  simp only [List.length_append, List.length_replicate]
  omega

lemma labelArray_length {v n : Nat} (hv : v < 2 ^ n) (hn : 1 ≤ n) :
    (labelArray v n).length = n := by
  simpa [labelArray] using labelBin_length hv hn

/-! ## C1: the binary encoding round-trips a word id -/

/-- C1: for every word id `v` and qubit count `n` with `v < 2^n` (in
particular `n = ceil(log2(1 + m))` for `m` the maximum dictionary id),
the rotation-angle encoding of `label_bin = bin(v)[-1:1:-1].ljust(n, '0')`
decodes back to `v` when the entry at position `j` (nonzero angle, i.e.
character `'1'`) is read as bit `j` of a little-endian binary number. -/
theorem c1_binary_roundtrip (v n : Nat) (h : v < 2 ^ n) :
    decodeLE (labelArray v n) = v := by
  unfold labelArray labelBin ljust
  rw [List.map_append, decodeLE_append, List.map_replicate]
  have h0 : pyInt '0' = 0 := rfl
  rw [h0, decodeLE_replicate_zero, Nat.mul_zero, Nat.add_zero, sliceRev_pyBin]
  by_cases hv : v = 0
  · subst hv; rfl
  · rw [if_neg hv]; exact decodeLE_binLE v

/-- Witness for C1 at the concrete input `v = 5`, `n = 3`. -/
theorem c1_binary_roundtrip_witness :
    5 < 2 ^ 3 ∧ decodeLE (labelArray 5 3) = 5 :=
  ⟨by decide, c1_binary_roundtrip 5 3 (by decide)⟩

/-! ## Lemmas about `pyEnum` and the word dictionary -/

lemma pyEnumFrom_length (l : List α) : ∀ i, (pyEnumFrom i l).length = l.length := by
  induction l with
  | nil => intro i; rfl
  | cons a as iha => intro i; simp [pyEnumFrom, iha]

lemma pyEnumFrom_map_snd (l : List α) : ∀ i, (pyEnumFrom i l).map Prod.snd = l := by
  induction l with
  | nil => intro i; rfl
  | cons a as iha => intro i; simp [pyEnumFrom, iha]

lemma pyEnumFrom_map_fst (l : List α) :
    ∀ i, (pyEnumFrom i l).map Prod.fst = List.range' i l.length := by
  induction l with
  | nil => intro i; rfl
  | cons a as iha => intro i; simp [pyEnumFrom, iha, List.range']

lemma pyEnumFrom_getElem (l : List α) :
    ∀ i p (h : p < l.length) (h2 : p < (pyEnumFrom i l).length),
      (pyEnumFrom i l)[p] = (i + p, l[p]) := by
  induction l with
  | nil => intro i p h h2; exact absurd h (by simp)
  | cons a as iha =>
    intro i p h h2
    match p with
    | 0 => simp [pyEnumFrom]
    | p + 1 =>
      have hp : p < as.length := by simpa using h
      have hp2 : p < (pyEnumFrom (i + 1) as).length := by
        rw [pyEnumFrom_length]; exact hp
      simp only [pyEnumFrom, List.getElem_cons_succ, iha (i + 1) p hp hp2]
      have : i + 1 + p = i + (p + 1) := by omega
      rw [this]

lemma wordDict_length (ws : List String) :
    ((pyEnum ws).map (fun q => (q.2, q.1))).length = ws.length := by
  rw [List.length_map, pyEnum, pyEnumFrom_length]

lemma wordDict_map_fst (ws : List String) :
    ((pyEnum ws).map (fun q => (q.2, q.1))).map Prod.fst = ws := by
  rw [List.map_map]
  have : (Prod.fst ∘ fun q : Nat × String => (q.2, q.1)) = Prod.snd := rfl
  rw [this, pyEnum, pyEnumFrom_map_snd]

lemma wordDict_map_snd (ws : List String) :
    ((pyEnum ws).map (fun q => (q.2, q.1))).map Prod.snd = List.range ws.length := by
  rw [List.map_map]
  have : (Prod.snd ∘ fun q : Nat × String => (q.2, q.1)) = Prod.fst := rfl
  rw [this, pyEnum, pyEnumFrom_map_fst, List.range_eq_range']

lemma wordDict_mem {ws : List String} {w : String} {i : Nat} :
    (w, i) ∈ (pyEnum ws).map (fun q => (q.2, q.1)) ↔
      ∃ h : i < ws.length, ws[i] = w := by
  constructor
  · intro hm
    rcases List.mem_iff_getElem.mp hm with ⟨p, hp, hget⟩
    have hpw : p < (pyEnum ws).length := by simpa using hp
    have hpl : p < ws.length := by
      have := pyEnumFrom_length ws 0
      simpa [pyEnum, this] using hpw
    unfold pyEnum at hpw
    rw [List.getElem_map] at hget
    unfold pyEnum at hget
    rw [pyEnumFrom_getElem ws 0 p hpl hpw] at hget
    have hw : ws[p] = w := congrArg Prod.fst hget
    have hi : p = i := by simpa using congrArg Prod.snd hget
    subst hi
    exact ⟨hpl, hw⟩
  · rintro ⟨h, hw⟩
    apply List.mem_iff_getElem.mpr
    have hiw : i < (pyEnum ws).length := by
      rw [pyEnum, pyEnumFrom_length]; exact h
    refine ⟨i, by simpa using hiw, ?_⟩
    unfold pyEnum at hiw
    rw [List.getElem_map]
    unfold pyEnum
    rw [pyEnumFrom_getElem ws 0 i h hiw]
    simp [hw]

/-! ## C2: the word dictionary enumerates the sorted distinct tokens -/

/-- C2: for every corpus (and window), the word dictionary's keys are
exactly the distinct whitespace-separated tokens of the corpus, its size
is the distinct-token count, its values are the consecutive ids
`0, …, n-1` assigned in lexicographically increasing key order, and the
resulting word-to-id map is injective (onto `{0, …, n-1}` by the value
enumeration). -/
theorem c2_word_dict (corpus : String) (window : Nat) :
    (∀ w : String,
        (∃ i, (w, i) ∈ (GenerateWordDictAndSample corpus window).1) ↔
          w ∈ pySplit corpus) ∧
    (GenerateWordDictAndSample corpus window).1.length
        = (pySplit corpus).dedup.length ∧
    (GenerateWordDictAndSample corpus window).1.map Prod.snd
        = List.range (GenerateWordDictAndSample corpus window).1.length ∧
    List.Pairwise (· < ·)
        ((GenerateWordDictAndSample corpus window).1.map Prod.fst) ∧
    (∀ w₁ i₁ w₂ i₂, (w₁, i₁) ∈ (GenerateWordDictAndSample corpus window).1 →
        (w₂, i₂) ∈ (GenerateWordDictAndSample corpus window).1 →
        i₁ = i₂ → w₁ = w₂) := by
  have hd : (GenerateWordDictAndSample corpus window).1 =
      (pyEnum ((pySplit corpus).dedup.insertionSort (· ≤ ·))).map
        (fun q => (q.2, q.1)) := rfl
  set tokens := pySplit corpus with htok
  set ws := tokens.dedup.insertionSort (· ≤ ·) with hws
  have hperm : List.Perm ws tokens.dedup := List.perm_insertionSort _ _
  have hnd : ws.Nodup := hperm.nodup_iff.mpr tokens.nodup_dedup
  have hsorted : List.Sorted (· ≤ ·) ws := List.sorted_insertionSort _ _
  have hmemws : ∀ w : String, w ∈ ws ↔ w ∈ tokens := by
    intro w
    rw [hperm.mem_iff, List.mem_dedup]
  refine ⟨?_, ?_, ?_, ?_, ?_⟩
  · intro w
    rw [hd]
    constructor
    · rintro ⟨i, hi⟩
      rcases wordDict_mem.mp hi with ⟨h, hw⟩
      exact (hmemws w).mp (hw ▸ List.getElem_mem h)
    · intro hw
      rcases List.mem_iff_getElem.mp ((hmemws w).mpr hw) with ⟨i, hi, hget⟩
      exact ⟨i, wordDict_mem.mpr ⟨hi, hget⟩⟩
  · rw [hd, wordDict_length, hperm.length_eq]
  · rw [hd, wordDict_map_snd, wordDict_length]
  · rw [hd, wordDict_map_fst]
    exact hsorted.lt_of_le hnd
  · intro w₁ i₁ w₂ i₂ h₁ h₂ hi
    rw [hd] at h₁ h₂
    rcases wordDict_mem.mp h₁ with ⟨hb₁, hw₁⟩
    rcases wordDict_mem.mp h₂ with ⟨hb₂, hw₂⟩
    subst hi
    rw [← hw₁, ← hw₂]

/-- Witness for C2 at a concrete corpus. -/
theorem c2_word_dict_witness :
    (∃ i, ("b", i) ∈ (GenerateWordDictAndSample "b a b c" 2).1) ↔
      "b" ∈ pySplit "b a b c" :=
  (c2_word_dict "b a b c" 2).1 "b"

/-! ## Lemmas about the sliding-window sampling -/

lemma getD_of_lt {α : Type _} (l : List α) (a : α) {n : Nat} (h : n < l.length) :
    l.getD n a = l[n] := by
  rw [List.getD_eq_getElem?_getD, List.getElem?_eq_getElem h, Option.getD_some]

lemma getD_map_lt {α β : Type _} (f : α → β) (l : List α) {k : Nat}
    (hk : k < l.length) (db : β) : (l.map f).getD k db = f l[k] := by
  have hk2 : k < (l.map f).length := by simpa using hk
  rw [getD_of_lt _ _ hk2, List.getElem_map]

lemma range'_map_getD (l : List String) :
    ∀ (cnt j : Nat), j + cnt ≤ l.length →
      (List.range' j cnt).map (fun i => l.getD i "") = (l.drop j).take cnt := by
  intro cnt
  induction cnt with
  | zero => intro j h; simp
  | succ cnt ihc =>
    intro j h
    have hj : j < l.length := by omega
    rw [List.range'_succ, List.map_cons, ihc (j + 1) (by omega),
      List.drop_eq_getElem_cons hj, List.take_succ_cons, getD_of_lt l "" hj]

lemma around_eq (tokens : List String) (k w : Nat)
    (h : k + (2 * w + 1) ≤ tokens.length) :
    ((List.range' k (2 * w + 1)).filter (fun i => i != k + w)).map
        (fun i => tokens.getD i "") =
      ((tokens.drop k).take w) ++ ((tokens.drop (k + w + 1)).take w) := by
  have hsplit : List.range' k (2 * w + 1) =
      List.range' k w ++ ((k + w) :: List.range' (k + w + 1) w) := by
    have h1 : List.range' k w ++ List.range' (k + w) (w + 1) =
        List.range' k (w + 1 + w) := List.range'_append_1 k w (w + 1)
    have h2 : List.range' (k + w) (w + 1) = (k + w) :: List.range' (k + w + 1) w :=
      List.range'_succ (k + w) w 1
    have h3 : 2 * w + 1 = w + 1 + w := by omega
    rw [h3, ← h1, h2]
  rw [hsplit, List.filter_append, List.filter_cons]
  have hfneg : ((k + w : Nat) != k + w) = false := by simp
  rw [if_neg (by simp)]
  have hleft : (List.range' k w).filter (fun i => i != k + w) = List.range' k w := by
    rw [List.filter_eq_self]
    intro a ha
    rcases List.mem_range'.mp ha with ⟨i, hi, rfl⟩
    simp only [bne_iff_ne, ne_eq]
    omega
  have hright : (List.range' (k + w + 1) w).filter (fun i => i != k + w) =
      List.range' (k + w + 1) w := by
    rw [List.filter_eq_self]
    intro a ha
    rcases List.mem_range'.mp ha with ⟨i, hi, rfl⟩
    simp only [bne_iff_ne, ne_eq]
    omega
  rw [hleft, hright, List.map_append, range'_map_getD tokens w k (by omega),
    range'_map_getD tokens w (k + w + 1) (by omega)]

lemma slice_length (l : List α) (w : Nat) (hw : 1 ≤ w) (hL : 2 * w < l.length) :
    (pySliceNeg l w w).length = l.length - 2 * w := by
  unfold pySliceNeg
  rw [if_neg (by omega)]
  rw [List.length_drop, List.length_take]
  omega

/-! ## C3: the fixed-window slide produces `L - 2w` ordered samples -/

/-- C3: for every corpus whose token list has length `L` and window
`w ≥ 1` with `L > 2w`, `GenerateWordDictAndSample` returns exactly
`L - 2w` samples, and the `k`-th sample pairs the context consisting of
tokens `k, …, k+2w` in position order with token `k+w` omitted against
the center word: token `k+w`. -/
theorem c3_window_slide (corpus : String) (window : Nat) (hw : 1 ≤ window)
    (hL : 2 * window < (pySplit corpus).length) :
    (GenerateWordDictAndSample corpus window).2.length
        = (pySplit corpus).length - 2 * window ∧
    ∀ k (hk : k < (pySplit corpus).length - 2 * window)
        (hc : k + window < (pySplit corpus).length),
      (GenerateWordDictAndSample corpus window).2.getD k ([], "") =
        ((((pySplit corpus).drop k).take window) ++
            (((pySplit corpus).drop (k + window + 1)).take window),
          (pySplit corpus).get ⟨k + window, hc⟩) := by
  set tokens := pySplit corpus with htok
  have hs : (GenerateWordDictAndSample corpus window).2 =
      (List.range (pySliceNeg tokens window window).length).map
        (fun index =>
          (((List.range' index (2 * window + 1)).filter
              (fun i => i != index + window)).map (fun i => tokens.getD i ""),
            tokens.getD (index + window) "")) := rfl
  have hlen : (pySliceNeg tokens window window).length = tokens.length - 2 * window :=
    slice_length tokens window hw hL
  constructor
  · rw [hs, List.length_map, List.length_range, hlen]
  · intro k hk hc
    have hk' : k < (List.range (pySliceNeg tokens window window).length).length := by
      rw [List.length_range, hlen]; exact hk
    have hkm : k < ((GenerateWordDictAndSample corpus window).2).length := by
      rw [hs, List.length_map]; exact hk'
    rw [getD_of_lt _ _ hkm]
    simp only [hs, List.getElem_map, List.getElem_range]
    rw [around_eq tokens k window (by omega), getD_of_lt tokens "" hc]
    rfl

/-- Witness for C3 at a concrete corpus (`L = 5`, `w = 2`). -/
theorem c3_window_slide_witness :
    (GenerateWordDictAndSample "a b c d e" 2).2.length
        = (pySplit "a b c d e").length - 2 * 2 :=
  (c3_window_slide "a b c d e" 2 (by decide) (by decide)).1

/-! ## C8: degenerate windows give no samples but the full dictionary -/

/-- C8: sample generation is total; if `window = 0` or the corpus has at
most `2 * window` tokens, the returned sample list is empty (the slice
`all_words[window:-window]` is empty in both cases — in particular
`window = 0` yields zero samples, not one per token), while the word
dictionary is the same complete dictionary as for any other window
(compared here with the notebook's default `window = 2`). -/
theorem c8_degenerate_window (corpus : String) (window : Nat)
    (h : window = 0 ∨ (pySplit corpus).length ≤ 2 * window) :
    (GenerateWordDictAndSample corpus window).2 = [] ∧
    (GenerateWordDictAndSample corpus window).1
      = (GenerateWordDictAndSample corpus 2).1 := by
  refine ⟨?_, rfl⟩
  have hs : (GenerateWordDictAndSample corpus window).2 =
      (List.range (pySliceNeg (pySplit corpus) window window).length).map
        (fun index =>
          (((List.range' index (2 * window + 1)).filter
              (fun i => i != index + window)).map
                (fun i => (pySplit corpus).getD i ""),
            (pySplit corpus).getD (index + window) "")) := rfl
  have hlen : (pySliceNeg (pySplit corpus) window window).length = 0 := by
    unfold pySliceNeg
    rcases h with h0 | hW
    · rw [if_pos h0]; rfl
    · by_cases hz : window = 0
      · rw [if_pos hz]; rfl
      · rw [if_neg hz, List.length_drop, List.length_take]
        omega
  rw [hs, hlen]
  rfl

/-- Witness for C8 at a concrete corpus with `window = 0`. -/
theorem c8_degenerate_window_witness :
    (GenerateWordDictAndSample "a b c" 0).2 = [] :=
  (c8_degenerate_window "a b c" 0 (Or.inl rfl)).1

/-! ## Lemmas about `GenerateTrainData` -/

lemma le_foldr_max (l : List Nat) : ∀ x ∈ l, x ≤ l.foldr max 0 := by
  induction l with
  | nil => simp
  | cons a as iha =>
    intro x hx
    rcases List.mem_cons.mp hx with rfl | hx
    · exact le_max_left _ _
    · exact le_trans (iha x hx) (le_max_right _ _)

lemma mem_of_lookup (w : String) : ∀ (d : List (String × Nat)) (v : Nat),
    List.lookup w d = some v → (w, v) ∈ d := by
  intro d
  induction d with
  | nil => intro v h; exact absurd h (by simp [List.lookup])
  | cons p ps ihp =>
    rcases p with ⟨a, b⟩
    intro v h
    simp only [List.lookup] at h
    by_cases hw : w = a
    · subst hw
      simp only [beq_self_eq_true] at h
      have hb : b = v := by simpa using h
      subst hb
      exact List.mem_cons_self _ _
    · have hba : (w == a) = false := beq_eq_false_iff_ne.mpr hw
      simp only [hba] at h
      exact List.mem_cons_of_mem _ (ihp v h)

lemma dictGet_le_maxIds (d : List (String × Nat)) (w : String) :
    dictGet d w ≤ maxIds d := by
  unfold dictGet maxIds
  cases h : List.lookup w d with
  | none => simp
  | some v =>
    rw [Option.getD_some]
    exact le_foldr_max _ v (List.mem_map.mpr ⟨(w, v), mem_of_lookup w d v h, rfl⟩)

lemma dictGet_lt_pow (d : List (String × Nat)) (w : String) :
    dictGet d w < 2 ^ nQubitsOf d := by
  have h1 : dictGet d w ≤ maxIds d := dictGet_le_maxIds d w
  have h2 : 1 + maxIds d ≤ 2 ^ Nat.clog 2 (1 + maxIds d) :=
    Nat.le_pow_clog (by omega) _
  unfold nQubitsOf
  omega

lemma nQubitsOf_pos {d : List (String × Nat)} (hm : 1 ≤ maxIds d) :
    1 ≤ nQubitsOf d :=
  Nat.clog_pos (by omega) (by omega)

lemma getD_append_left_nat (a b : List Nat) {j : Nat} (hj : j < a.length)
    (dflt : Nat) : (a ++ b).getD j dflt = a.getD j dflt := by
  have hj2 : j < (a ++ b).length := by
    rw [List.length_append]; omega
  rw [getD_of_lt _ _ hj2, getD_of_lt _ _ hj,
    List.getElem_append_left]

lemma getD_append_right_len (a b : List Nat) (t dflt : Nat) :
    (a ++ b).getD (a.length + t) dflt = b.getD t dflt := by
  induction a with
  | nil => simp
  | cons x xs ihx =>
    have hidx : (x :: xs).length + t = (xs.length + t) + 1 := by
      simp [List.length_cons]; omega
    rw [hidx, List.cons_append, List.getD_cons_succ, ihx]

lemma flatten_length_uniform (n : Nat) :
    ∀ (ls : List (List Nat)), (∀ x ∈ ls, x.length = n) →
      ls.flatten.length = ls.length * n := by
  intro ls
  induction ls with
  | nil => intro h; simp
  | cons a as iha =>
    intro h
    rw [List.flatten_cons, List.length_append, iha (fun x hx => h x (List.mem_cons_of_mem _ hx)),
      h a (List.mem_cons_self _ _), List.length_cons, Nat.succ_mul]
    omega

lemma flatten_getD_uniform (n : Nat) :
    ∀ (ls : List (List Nat)), (∀ x ∈ ls, x.length = n) →
      ∀ w j, w < ls.length → j < n →
        ls.flatten.getD (n * w + j) 0 = (ls.getD w []).getD j 0 := by
  intro ls
  induction ls with
  | nil => intro h w j hw hj; exact absurd hw (by simp)
  | cons a as iha =>
    intro h w j hw hj
    have ha : a.length = n := h a (List.mem_cons_self _ _)
    match w with
    | 0 =>
      rw [Nat.mul_zero, Nat.zero_add, List.flatten_cons, List.getD_cons_zero,
        getD_append_left_nat a as.flatten (by omega) 0]
    | w + 1 =>
      have hidx : n * (w + 1) + j = a.length + (n * w + j) := by
        rw [ha, Nat.mul_succ]
        omega
      rw [hidx, List.flatten_cons, getD_append_right_len, List.getD_cons_succ,
        iha (fun x hx => h x (List.mem_cons_of_mem _ hx)) w j (by simpa using hw) hj]

/-! ## C4: feature rows binary-encode the context-word ids -/

/-- C4 (amended): for every sample list and every dictionary whose
maximum id `m` satisfies `m ≥ 1`, `GenerateTrainData` returns one row per
sample; a sample with `c` context words gets a row of length `c * n`
where `n = ceil(log2(1 + m))`; entry `n*w + j` of the row is `π` (the
entry `1` in units of π) if bit `j` of the id of the `w`-th context word
is set and `0.0` (the entry `0`) otherwise; and `data_y[k]` is the
dictionary id of the `k`-th sample's center word.  (The original claim,
without `m ≥ 1`, fails at a single-word dictionary: see the
counterexample.) -/
theorem c4_train_data (sample : List (List String × String))
    (d : List (String × Nat)) (hm : 1 ≤ maxIds d) :
    (GenerateTrainData sample d).1.length = sample.length ∧
    (GenerateTrainData sample d).2.length = sample.length ∧
    ∀ k (hk : k < sample.length),
      ((GenerateTrainData sample d).1.getD k []).length
          = (sample.get ⟨k, hk⟩).1.length * nQubitsOf d ∧
      (∀ w j, w < (sample.get ⟨k, hk⟩).1.length → j < nQubitsOf d →
        ((GenerateTrainData sample d).1.getD k []).getD (nQubitsOf d * w + j) 0
          = if (dictGet d ((sample.get ⟨k, hk⟩).1.getD w "")).testBit j
            then 1 else 0) ∧
      (GenerateTrainData sample d).2.getD k 0
          = dictGet d (sample.get ⟨k, hk⟩).2 := by
  have hn1 : 1 ≤ nQubitsOf d := nQubitsOf_pos hm
  have h1 : (GenerateTrainData sample d).1 =
      sample.map (fun s =>
        (s.1.map (fun word => labelArray (dictGet d word) (nQubitsOf d))).flatten) := rfl
  have h2 : (GenerateTrainData sample d).2 =
      sample.map (fun s => dictGet d s.2) := rfl
  refine ⟨by rw [h1, List.length_map], by rw [h2, List.length_map], ?_⟩
  intro k hk
  have hget : sample.get ⟨k, hk⟩ = sample[k] := List.get_eq_getElem sample ⟨k, hk⟩
  have hrow : (GenerateTrainData sample d).1.getD k [] =
      ((sample[k].1).map
        (fun word => labelArray (dictGet d word) (nQubitsOf d))).flatten := by
    rw [h1, getD_map_lt _ _ hk []]
  have hurow : ∀ x ∈ (sample[k].1).map
      (fun word => labelArray (dictGet d word) (nQubitsOf d)),
      x.length = nQubitsOf d := by
    intro x hx
    rcases List.mem_map.mp hx with ⟨word, hwmem, rfl⟩
    exact labelArray_length (dictGet_lt_pow d word) hn1
  refine ⟨?_, ?_, ?_⟩
  · rw [hrow, flatten_length_uniform _ _ hurow, List.length_map, hget]
  · intro w j hw hj
    rw [hget] at hw
    rw [hrow, flatten_getD_uniform _ _ hurow w j (by simpa using hw) hj,
      getD_map_lt _ _ hw [], hget, getD_of_lt _ _ hw]
    have hjlen : j < (labelBin (dictGet d (sample[k].1[w])) (nQubitsOf d)).length := by
      rw [labelBin_length (dictGet_lt_pow d _) hn1]
      exact hj
    unfold labelArray
    rw [getD_map_lt pyInt _ hjlen 0, ← getD_of_lt _ '0' hjlen, labelBin_getD]
    by_cases hbit : (dictGet d (sample[k].1[w])).testBit j
    · rw [if_pos hbit, if_pos hbit]; rfl
    · rw [if_neg hbit, if_neg hbit]; rfl
  · rw [h2, getD_map_lt _ _ hk 0, hget]

/-- Witness for C4 at a concrete sample list and two-word dictionary. -/
theorem c4_train_data_witness :
    1 ≤ maxIds [("a", 0), ("b", 1)] ∧
    (GenerateTrainData [(["a", "b"], "b")] [("a", 0), ("b", 1)]).1.length = 1 :=
  ⟨by decide, (c4_train_data [(["a", "b"], "b")] [("a", 0), ("b", 1)] (by decide)).1⟩

/-- C4, original form, is false: with the single-word dictionary
`{"a": 0}` the maximum id is `m = 0`, so `n = ceil(log2(1)) = 0`, yet the
row for a sample with one context word has length `1` (the encoding of
the id `0` is the one-character string `"0"`), not `1 * n = 0`. -/
theorem c4_row_length_counterexample :
    ¬ (((GenerateTrainData [(["a"], "a")] [("a", 0)]).1.getD 0 []).length
        = 1 * nQubitsOf [("a", 0)]) := by
  have hmax : maxIds [("a", 0)] = 0 := rfl
  have hq : nQubitsOf [("a", 0)] = 0 := by
    unfold nQubitsOf
    rw [hmax, Nat.clog_one_right]
  rw [hq, Nat.mul_zero]
  have hrow : (GenerateTrainData [(["a"], "a")] [("a", 0)]).1.getD 0 [] =
      labelArray (dictGet [("a", 0)] "a") (nQubitsOf [("a", 0)]) ++ [] := rfl
  rw [hrow, hq]
  have hdg : dictGet [("a", 0)] "a" = 0 := rfl
  rw [hdg]
  unfold labelArray labelBin ljust
  rw [sliceRev_pyBin]
  simp

/-! ## Lemmas about circuit construction -/

lemma gates_foldl {α : Type _} (step : Circuit → α → Circuit)
    (seg : α → List PGate) (hstep : ∀ c x, (step c x).gates = c.gates ++ seg x) :
    ∀ (l : List α) (c0 : Circuit),
      (l.foldl step c0).gates = c0.gates ++ (l.map seg).flatten := by
  intro l
  induction l with
  | nil => intro c0; simp
  | cons x xs ihx =>
    intro c0
    rw [List.foldl_cons, ihx, hstep, List.map_cons, List.flatten_cons,
      List.append_assoc]

lemma flatten_map_singleton {α β : Type _} (f : α → β) :
    ∀ l : List α, (l.map (fun x => [f x])).flatten = l.map f := by
  intro l
  induction l with
  | nil => rfl
  | cons x xs ihx => simp only [List.map_cons, List.flatten_cons, ihx]; rfl

lemma normPfx_eq (pfx : String) :
    normPfx pfx = if pfx = "" ∨ pfx.data.getLast? = some '_' then pfx
      else pfx ++ "_" := by
  unfold normPfx
  split_ifs with h1 h2 h3 <;> first | rfl | tauto

lemma encoder_gates (n : Nat) (pfx : String) :
    (GenerateEncoderCircuit n pfx).gates =
      (List.range n).map (fun i =>
        (⟨Gate.RX (normPfx pfx ++ str10 i) i, true, false⟩ : PGate)) := by
  have hc : GenerateEncoderCircuit n pfx =
      ((List.range n).foldl
        (fun circ i => circ.add (Gate.RX (normPfx pfx ++ str10 i) i))
        Circuit.empty).as_encoder := rfl
  rw [hc]
  unfold Circuit.as_encoder
  rw [gates_foldl
    (fun circ i => circ.add (Gate.RX (normPfx pfx ++ str10 i) i))
    (fun i => [(⟨Gate.RX (normPfx pfx ++ str10 i) i, false, false⟩ : PGate)])
    (fun c x => rfl), flatten_map_singleton]
  simp only [Circuit.empty, List.nil_append, List.map_map]
  rfl

/-! ## C6: the encoder circuit is one RX per qubit -/

/-- C6: for every `n_qubits` and prefix, `GenerateEncoderCircuit` returns
a circuit of exactly `n_qubits` gates whose `i`-th gate is an RX rotation
on qubit `i` with parameter name `p + str(i)`, where `p` is the prefix
with `'_'` appended exactly when the prefix is nonempty and does not
already end in `'_'`. -/
theorem c6_encoder_circuit (n_qubits : Nat) (pfx : String) :
    (GenerateEncoderCircuit n_qubits pfx).gates.length = n_qubits ∧
    ∀ i (hi : i < (GenerateEncoderCircuit n_qubits pfx).gates.length),
      ((GenerateEncoderCircuit n_qubits pfx).gates.get ⟨i, hi⟩).gate
        = Gate.RX ((if pfx = "" ∨ pfx.data.getLast? = some '_' then pfx
            else pfx ++ "_") ++ str10 i) i := by
  constructor
  · rw [encoder_gates, List.length_map, List.length_range]
  · intro i hi
    rw [List.get_eq_getElem]
    simp only [encoder_gates, List.getElem_map, List.getElem_range]
    rw [normPfx_eq]

/-! ## Lemmas for the ansatz circuit -/

lemma range'_two_eq_map : ∀ (m a : Nat),
    List.range' a m 2 = (List.range m).map (fun k => a + 2 * k) := by
  intro m
  induction m with
  | zero => intro a; rfl
  | succ m ihm =>
    intro a
    rw [List.range'_succ, ihm (a + 2), List.range_succ_eq_map, List.map_cons,
      List.map_map]
    simp only [Nat.mul_zero, Nat.add_zero]
    congr 1
    apply List.map_congr_left
    intro k _
    simp only [Function.comp_apply, Nat.succ_eq_add_one]
    omega

lemma filter_range_eq_range (q : Nat → Bool) :
    ∀ (m t : Nat), t ≤ m → (∀ k, q k = true ↔ k < t) →
      (List.range m).filter q = List.range t := by
  intro m
  induction m with
  | zero =>
    intro t ht hq
    have h0 : t = 0 := by omega
    subst h0
    rfl
  | succ m ihm =>
    intro t ht hq
    rw [List.range_succ, List.filter_append]
    by_cases hcase : t = m + 1
    · subst hcase
      have h1 : (List.range m).filter q = List.range m := by
        rw [List.filter_eq_self]
        intro a ha
        exact (hq a).mpr (by have := List.mem_range.mp ha; omega)
      have h2 : q m = true := (hq m).mpr (by omega)
      rw [h1, List.filter_cons, if_pos (by simp [h2]), List.filter_nil,
        ← List.range_succ]
    · have htm : t ≤ m := by omega
      have h2 : q m = false := by
        by_cases hqm : q m = true
        · exact absurd ((hq m).mp hqm) (by omega)
        · simpa using hqm
      rw [ihm t htm hq, List.filter_cons, if_neg (by simp [h2]), List.filter_nil,
        List.append_nil]

lemma flatten_map_ite (p : Nat → Prop) [DecidablePred p] (f : Nat → PGate) :
    ∀ l : List Nat,
      (l.map (fun x => if p x then [f x] else [])).flatten
        = (l.filter (fun x => decide (p x))).map f := by
  intro l
  induction l with
  | nil => rfl
  | cons x xs ihx =>
    rw [List.map_cons, List.flatten_cons, ihx, List.filter_cons]
    by_cases hx : p x
    · rw [if_pos hx, if_pos (by simp [hx])]
      rfl
    · rw [if_neg hx, if_neg (by simp [hx])]
      rfl

lemma cnot_segment (n a : Nat) :
    ((pyRange2 a n).filter (fun i => decide (i < n ∧ i + 1 < n))).map
        (fun i => Gate.X (i + 1) i)
      = (List.range ((n - a) / 2)).map
          (fun k => Gate.X (a + 2 * k + 1) (a + 2 * k)) := by
  unfold pyRange2
  rw [range'_two_eq_map, List.filter_map, List.map_map]
  rw [filter_range_eq_range _ ((n - a + 1) / 2) ((n - a) / 2) (by omega) ?_]
  · rfl
  · intro k
    simp only [Function.comp_apply, decide_eq_true_eq]
    omega

lemma ansatz_gates (n L : Nat) (pfx : String) :
    (GenerateAnsatzCircuit n L pfx).gates =
      ((List.range L).map (fun l =>
        ((List.range n).map (fun i =>
          (⟨Gate.RY (normPfx pfx ++ str10 l ++ "_" ++ str10 i) i,
            false, false⟩ : PGate))) ++
        (((pyRange2 (l % 2) n).filter (fun i => decide (i < n ∧ i + 1 < n))).map
          (fun i => (⟨Gate.X (i + 1) i, false, false⟩ : PGate))))).flatten := by
  have hc : GenerateAnsatzCircuit n L pfx =
      ((List.range L).foldl
        (fun circ l =>
          (pyRange2 (l % 2) n).foldl
            (fun c i =>
              if i < n ∧ i + 1 < n then c.add (Gate.X (i + 1) i) else c)
            ((List.range n).foldl
              (fun c i =>
                c.add (Gate.RY (normPfx pfx ++ str10 l ++ "_" ++ str10 i) i))
              circ))
        Circuit.empty).as_ansatz := rfl
  have hstep : ∀ (c : Circuit) (l : Nat),
      ((pyRange2 (l % 2) n).foldl
        (fun c i =>
          if i < n ∧ i + 1 < n then c.add (Gate.X (i + 1) i) else c)
        ((List.range n).foldl
          (fun c i =>
            c.add (Gate.RY (normPfx pfx ++ str10 l ++ "_" ++ str10 i) i))
          c)).gates
        = c.gates ++
          (((List.range n).map (fun i =>
            (⟨Gate.RY (normPfx pfx ++ str10 l ++ "_" ++ str10 i) i,
              false, false⟩ : PGate))) ++
          (((pyRange2 (l % 2) n).filter
              (fun i => decide (i < n ∧ i + 1 < n))).map
            (fun i => (⟨Gate.X (i + 1) i, false, false⟩ : PGate)))) := by
    intro c l
    rw [gates_foldl
      (fun c i => if i < n ∧ i + 1 < n then c.add (Gate.X (i + 1) i) else c)
      (fun i => if i < n ∧ i + 1 < n
        then [(⟨Gate.X (i + 1) i, false, false⟩ : PGate)] else [])
      (fun c x => by
        simp only []
        by_cases h : x < n ∧ x + 1 < n
        · rw [if_pos h, if_pos h]; rfl
        · rw [if_neg h, if_neg h, List.append_nil])]
    rw [gates_foldl
      (fun c i =>
        c.add (Gate.RY (normPfx pfx ++ str10 l ++ "_" ++ str10 i) i))
      (fun i => [(⟨Gate.RY (normPfx pfx ++ str10 l ++ "_" ++ str10 i) i,
        false, false⟩ : PGate)])
      (fun c x => rfl)]
    rw [flatten_map_singleton, flatten_map_ite, List.append_assoc]
  rw [hc]
  unfold Circuit.as_ansatz
  rw [gates_foldl _ _ hstep]
  simp only [Circuit.empty, List.nil_append, List.map_flatten, List.map_map]
  congr 1
  apply List.map_congr_left
  intro l hl
  simp only [Function.comp_apply, List.map_append, List.map_map]
  rfl

/-! ## C7: the ansatz circuit layer structure -/

/-- C7: for every `n_qubits`, `layers` and prefix, the ansatz circuit is
built layer by layer; layer `l` consists of exactly `n_qubits` RY gates,
one per qubit `i` with parameter name `p + str(l) + '_' + str(i)` (`p`
normalised as for the encoder), followed by exactly
`floor((n_qubits - l % 2) / 2)` CNOT gates `X(i + 1, i)` at control
positions `i = l % 2, l % 2 + 2, …` with `i + 1 < n_qubits` — the CNOT
pattern offset by one qubit on odd layers. -/
theorem c7_ansatz_circuit (n_qubits layers : Nat) (pfx : String) :
    (GenerateAnsatzCircuit n_qubits layers pfx).gates.map PGate.gate =
      ((List.range layers).map (fun l =>
        (List.range n_qubits).map (fun i =>
          Gate.RY ((if pfx = "" ∨ pfx.data.getLast? = some '_' then pfx
            else pfx ++ "_") ++ str10 l ++ "_" ++ str10 i) i) ++
        (List.range ((n_qubits - l % 2) / 2)).map
          (fun k => Gate.X (l % 2 + 2 * k + 1) (l % 2 + 2 * k)))).flatten := by
  rw [ansatz_gates, List.map_flatten, List.map_map]
  congr 1
  apply List.map_congr_left
  intro l hl
  simp only [Function.comp_apply, List.map_append, List.map_map]
  rw [← normPfx_eq]
  congr 1
  exact cnot_segment n_qubits (l % 2)

/-! ## Lemmas about decimal digit strings -/

lemma digitsLE_succ (n : Nat) :
    digitsLE (n + 1) = (n + 1) % 10 :: digitsLE ((n + 1) / 10) := by
  rw [digitsLE]

lemma ofDigits_digitsLE (n : Nat) : Nat.ofDigits 10 (digitsLE n) = n := by
  induction n using Nat.strong_induction_on with
  | _ n ih =>
    match n with
    | 0 => simp [digitsLE, Nat.ofDigits]
    | m + 1 =>
      rw [digitsLE_succ, Nat.ofDigits_cons,
        ih ((m + 1) / 10) (Nat.div_lt_self (Nat.succ_pos m) (by omega))]
      omega

lemma digitsLE_inj {a b : Nat} (h : digitsLE a = digitsLE b) : a = b := by
  rw [← ofDigits_digitsLE a, h, ofDigits_digitsLE]

lemma digitsLE_lt_ten (n : Nat) : ∀ x ∈ digitsLE n, x < 10 := by
  induction n using Nat.strong_induction_on with
  | _ n ih =>
    match n with
    | 0 => simp [digitsLE]
    | m + 1 =>
      rw [digitsLE_succ]
      intro x hx
      rcases List.mem_cons.mp hx with rfl | hx
      · omega
      · exact ih ((m + 1) / 10) (Nat.div_lt_self (Nat.succ_pos m) (by omega)) x hx

lemma digitChar_inj_lt :
    ∀ a < 10, ∀ b < 10, Nat.digitChar a = Nat.digitChar b → a = b := by decide

lemma digitChar_not_special :
    ∀ d < 10, Nat.digitChar d ≠ ' ' ∧ Nat.digitChar d ≠ 'Z' ∧
      (Nat.digitChar d).isWhitespace = false := by decide

lemma map_digitChar_inj : ∀ (xs ys : List Nat), (∀ x ∈ xs, x < 10) →
    (∀ y ∈ ys, y < 10) → xs.map Nat.digitChar = ys.map Nat.digitChar → xs = ys := by
  intro xs
  induction xs with
  | nil =>
    intro ys _ _ h
    cases ys with
    | nil => rfl
    | cons b bs => exact absurd h (by simp)
  | cons a as iha =>
    intro ys hx hy h
    cases ys with
    | nil => exact absurd h (by simp)
    | cons b bs =>
      simp only [List.map_cons, List.cons.injEq] at h
      have hab : a = b :=
        digitChar_inj_lt a (hx a (List.mem_cons_self _ _)) b
          (hy b (List.mem_cons_self _ _)) h.1
      rw [hab, iha bs (fun x hxm => hx x (List.mem_cons_of_mem _ hxm))
        (fun y hym => hy y (List.mem_cons_of_mem _ hym)) h.2]

lemma strChars_ne_nil (n : Nat) : strChars n ≠ [] := by
  unfold strChars
  split
  · simp
  · next hn =>
    simp only [ne_eq, List.reverse_eq_nil_iff, List.map_eq_nil_iff]
    match n, hn with
    | m + 1, _ => rw [digitsLE_succ]; simp

lemma strChars_inj : ∀ (a b : Nat), strChars a = strChars b → a = b := by
  have key : ∀ b : Nat, b ≠ 0 → ¬ ((digitsLE b).map Nat.digitChar).reverse = ['0'] := by
    intro b hb h
    rw [show (['0'] : List Char) = ['0'].reverse from rfl, List.reverse_inj] at h
    have hd : digitsLE b = [0] := by
      cases hdl : digitsLE b with
      | nil => rw [hdl] at h; exact absurd h (by simp)
      | cons d t =>
        rw [hdl] at h
        simp only [List.map_cons, List.cons.injEq] at h
        have hd10 : d < 10 := digitsLE_lt_ten b d (by rw [hdl]; exact List.mem_cons_self _ _)
        have hd0 : d = 0 := digitChar_inj_lt d hd10 0 (by omega) (by simpa using h.1)
        have ht : t = [] := by
          rcases h with ⟨_, h2⟩
          exact List.map_eq_nil_iff.mp h2
        rw [hd0, ht]
    have : b = 0 := by
      have := ofDigits_digitsLE b
      rw [hd] at this
      simpa [Nat.ofDigits] using this.symm
    exact hb this
  intro a b h
  unfold strChars at h
  by_cases ha : a = 0 <;> by_cases hb : b = 0
  · rw [ha, hb]
  · rw [if_pos ha, if_neg hb] at h
    exact absurd h.symm (key b hb)
  · rw [if_neg ha, if_pos hb] at h
    exact absurd h (key a ha)
  · rw [if_neg ha, if_neg hb, List.reverse_inj] at h
    exact digitsLE_inj
      (map_digitChar_inj _ _ (digitsLE_lt_ten a) (digitsLE_lt_ten b) h)

lemma strChars_not_special (n : Nat) :
    ∀ c ∈ strChars n, c ≠ ' ' ∧ c.isWhitespace = false := by
  unfold strChars
  split
  · intro c hc
    have : c = '0' := by simpa using hc
    rw [this]
    exact ⟨by decide, by decide⟩
  · intro c hc
    rw [List.mem_reverse] at hc
    rcases List.mem_map.mp hc with ⟨d, hd, rfl⟩
    have hd10 : d < 10 := digitsLE_lt_ten n d hd
    obtain ⟨h1, _, h3⟩ := digitChar_not_special d hd10
    exact ⟨h1, h3⟩

/-! ## Lemmas about the Hamiltonian key strings -/

lemma split_at_space : ∀ (xs : List Char), ∀ {ys xr yr : List Char},
    (∀ c ∈ xs, c ≠ ' ') → (∀ c ∈ ys, c ≠ ' ') →
    xs ++ ' ' :: xr = ys ++ ' ' :: yr → xs = ys ∧ xr = yr := by
  intro xs
  induction xs with
  | nil =>
    intro ys xr yr hx hy h
    cases ys with
    | nil => simpa using h
    | cons b bs =>
      exfalso
      have hb : b = ' ' := by
        have := congrArg (fun l => List.head? l) h
        simpa using this.symm
      exact hy b (List.mem_cons_self _ _) hb
  | cons a as iha =>
    intro ys xr yr hx hy h
    cases ys with
    | nil =>
      exfalso
      have ha : a = ' ' := by
        have := congrArg (fun l => List.head? l) h
        simpa using this
      exact hx a (List.mem_cons_self _ _) ha
    | cons b bs =>
      simp only [List.cons_append, List.cons.injEq] at h
      obtain ⟨hab, h2⟩ := h
      obtain ⟨hs, hr⟩ := iha (fun c hc => hx c (List.mem_cons_of_mem _ hc))
        (fun c hc => hy c (List.mem_cons_of_mem _ hc)) h2
      exact ⟨by rw [hab, hs], hr⟩

lemma zTokens_nil : zTokens [] = [] := rfl

lemma zTokens_cons (j : Nat) (l : List Nat) :
    zTokens (j :: l) = 'Z' :: (strChars j ++ ' ' :: zTokens l) := by
  unfold zTokens
  rw [List.map_cons, List.flatten_cons, List.cons_append, List.append_assoc]
  rfl

lemma zTokens_inj : ∀ (l1 l2 : List Nat), zTokens l1 = zTokens l2 → l1 = l2 := by
  intro l1
  induction l1 with
  | nil =>
    intro l2 h
    cases l2 with
    | nil => rfl
    | cons b bs =>
      rw [zTokens_nil, zTokens_cons] at h
      exact absurd h (by simp)
  | cons a as iha =>
    intro l2 h
    cases l2 with
    | nil =>
      rw [zTokens_nil, zTokens_cons] at h
      exact absurd h (by simp)
    | cons b bs =>
      rw [zTokens_cons, zTokens_cons] at h
      have h2 : strChars a ++ ' ' :: zTokens as = strChars b ++ ' ' :: zTokens bs := by
        simpa using h
      obtain ⟨hs, hr⟩ := split_at_space (strChars a)
        (fun c hc => (strChars_not_special a c hc).1)
        (fun c hc => (strChars_not_special b c hc).1) h2
      rw [strChars_inj a b hs, iha bs hr]

lemma zTokens_last_structure : ∀ (l : List Nat) (j : Nat),
    ∃ x c, c.isWhitespace = false ∧ zTokens (j :: l) = x ++ [c, ' '] := by
  intro l
  induction l with
  | nil =>
    intro j
    rcases (List.eq_nil_or_concat (strChars j)).resolve_left (strChars_ne_nil j)
      with ⟨ini, c, hic⟩
    refine ⟨'Z' :: ini, c, ?_, ?_⟩
    · exact (strChars_not_special j c (by rw [hic]; simp)).2
    · rw [zTokens_cons, zTokens_nil, hic]
      simp
  | cons b bs ihb =>
    intro j
    rcases ihb b with ⟨x, c, hc, hx⟩
    refine ⟨'Z' :: (strChars j ++ ' ' :: x), c, hc, ?_⟩
    rw [zTokens_cons, hx]
    simp

lemma pyStrip_zTokens (l : List Nat) (j : Nat) :
    pyStrip (zTokens (j :: l)) ++ [' '] = zTokens (j :: l) := by
  rcases zTokens_last_structure l j with ⟨x, c, hc, hx⟩
  unfold pyStrip
  rw [zTokens_cons]
  rw [List.dropWhile_cons, if_neg (by decide)]
  rw [← zTokens_cons, hx]
  have hrev : (x ++ [c, ' ']).reverse = ' ' :: c :: x.reverse := by
    simp
  rw [hrev, List.dropWhile_cons, if_pos (by decide), List.dropWhile_cons,
    if_neg (by simp [hc])]
  simp

lemma binLE_zero : binLE 0 = [] := by rw [binLE]

lemma bitIndices_zero : bitIndices 0 = [] := by
  unfold bitIndices pyEnum
  rw [binLE_zero]
  rfl

lemma filter_fst_enumFrom_shift : ∀ (l : List Char) (i : Nat),
    ((pyEnumFrom (i + 1) l).filter (fun q => q.2 == '1')).map Prod.fst
      = (((pyEnumFrom i l).filter (fun q => q.2 == '1')).map Prod.fst).map
          (fun x => x + 1) := by
  intro l
  induction l with
  | nil => intro i; rfl
  | cons c cs ihc =>
    intro i
    simp only [pyEnumFrom, List.filter_cons]
    by_cases hcb : (c == '1') = true
    · simp only [hcb, if_true, List.map_cons, ihc (i + 1)]
    · simp only [hcb, Bool.false_eq_true, if_false, ihc (i + 1)]

lemma filter_fst_enumFrom_one (l : List Char) :
    ((pyEnumFrom 1 l).filter (fun q => q.2 == '1')).map Prod.fst
      = (((pyEnumFrom 0 l).filter (fun q => q.2 == '1')).map Prod.fst).map
          (fun x => x + 1) := by
  have h := filter_fst_enumFrom_shift l 0
  simpa using h

lemma bitIndices_succ (v : Nat) (hv : v ≠ 0) :
    bitIndices v = (if v % 2 = 1 then [0] else [])
      ++ (bitIndices (v / 2)).map (fun x => x + 1) := by
  obtain ⟨m, rfl⟩ : ∃ m, v = m + 1 := ⟨v - 1, by omega⟩
  by_cases h : (m + 1) % 2 = 1
  · rw [if_pos h]
    unfold bitIndices pyEnum
    rw [binLE_succ, if_pos h]
    rw [show pyEnumFrom 0 ('1' :: binLE ((m + 1) / 2))
        = (0, '1') :: pyEnumFrom 1 (binLE ((m + 1) / 2)) from rfl]
    rw [List.filter_cons, if_pos (by decide), List.map_cons,
      filter_fst_enumFrom_one]
    rfl
  · rw [if_neg h]
    unfold bitIndices pyEnum
    rw [binLE_succ, if_neg h]
    rw [show pyEnumFrom 0 ('0' :: binLE ((m + 1) / 2))
        = (0, '0') :: pyEnumFrom 1 (binLE ((m + 1) / 2)) from rfl]
    rw [List.filter_cons, if_neg (by decide), filter_fst_enumFrom_one]
    rfl

lemma bitVal_map_add_one : ∀ (l : List Nat),
    bitVal (l.map (fun x => x + 1)) = 2 * bitVal l := by
  intro l
  induction l with
  | nil => rfl
  | cons a as iha =>
    unfold bitVal at *
    simp only [List.map_cons, List.sum_cons] at *
    rw [iha, pow_succ]
    ring

lemma bitVal_bitIndices (v : Nat) : bitVal (bitIndices v) = v := by
  induction v using Nat.strong_induction_on with
  | _ v ih =>
    by_cases hv : v = 0
    · rw [hv, bitIndices_zero]; rfl
    · rw [bitIndices_succ v hv]
      unfold bitVal
      rw [List.map_append, List.sum_append]
      have hrec : bitVal ((bitIndices (v / 2)).map (fun x => x + 1))
          = 2 * (v / 2) := by
        rw [bitVal_map_add_one, ih (v / 2) (Nat.div_lt_self (by omega) (by omega))]
      unfold bitVal at hrec
      rw [List.map_map] at hrec ⊢
      rw [hrec]
      by_cases h : v % 2 = 1
      · rw [if_pos h]; simp only [List.map_cons, List.sum_cons, pow_zero,
          List.map_nil, List.sum_nil]
        omega
      · rw [if_neg h]; simp only [List.map_nil, List.sum_nil]
        omega

lemma bitIndices_inj {a b : Nat} (h : bitIndices a = bitIndices b) : a = b := by
  rw [← bitVal_bitIndices a, h, bitVal_bitIndices]

lemma bitIndices_ne_nil {v : Nat} (hv : v ≠ 0) : bitIndices v ≠ [] := by
  intro h
  apply hv
  rw [← bitVal_bitIndices v, h]
  rfl

lemma bitIndices_two_pow : ∀ n : Nat, bitIndices (2 ^ n) = [n] := by
  intro n
  induction n with
  | zero =>
    rw [pow_zero, bitIndices_succ 1 (by omega)]
    rw [if_pos (by omega), show (1 : Nat) / 2 = 0 from by omega, bitIndices_zero]
    rfl
  | succ n ihn =>
    have hpos : (1 : Nat) ≤ 2 ^ (n + 1) := Nat.one_le_two_pow
    have h2 : 2 ^ (n + 1) % 2 = 0 := by rw [pow_succ]; omega
    have h3 : 2 ^ (n + 1) / 2 = 2 ^ n := by rw [pow_succ]; omega
    rw [bitIndices_succ (2 ^ (n + 1)) (by omega), if_neg (by omega), h3, ihn]
    rfl

lemma foldl_append_flatten {α β : Type _} (f : α → List β) :
    ∀ (l : List α) (init : List β),
      l.foldl (fun s x => s ++ f x) init = init ++ (l.map f).flatten := by
  intro l
  induction l with
  | nil => intro init; simp
  | cons x xs ihx =>
    intro init
    rw [List.foldl_cons, ihx, List.map_cons, List.flatten_cons, List.append_assoc]

lemma hamKeyRaw_eq (i : Nat) : hamKeyRaw i = zTokens (bitIndices (i + 1)) := by
  unfold hamKeyRaw
  rw [sliceRev_pyBin, if_neg (by omega)]
  rw [foldl_append_flatten (fun p : Nat × Char => 'Z' :: (strChars p.1 ++ [' ']))]
  rw [List.nil_append]
  unfold zTokens bitIndices
  rw [List.map_map]
  rfl

lemma hamKey_inj : ∀ (a b : Nat), hamKey a = hamKey b → a = b := by
  intro a b h
  have h2 : pyStrip (hamKeyRaw a) = pyStrip (hamKeyRaw b) := congrArg String.data h
  rw [hamKeyRaw_eq, hamKeyRaw_eq] at h2
  rcases hA : bitIndices (a + 1) with _ | ⟨ja, la⟩
  · exact absurd hA (bitIndices_ne_nil (by omega))
  rcases hB : bitIndices (b + 1) with _ | ⟨jb, lb⟩
  · exact absurd hB (bitIndices_ne_nil (by omega))
  rw [hA, hB] at h2
  have h3 : zTokens (ja :: la) = zTokens (jb :: lb) := by
    rw [← pyStrip_zTokens la ja, ← pyStrip_zTokens lb jb, h2]
  have h4 : bitIndices (a + 1) = bitIndices (b + 1) := by
    rw [hA, hB]
    exact zTokens_inj _ _ h3
  have h5 := bitIndices_inj h4
  omega

lemma zTokens_eq_intercalate : ∀ (l : List Nat) (j : Nat),
    zTokens (j :: l)
      = List.intercalate [' ']
          ((j :: l).map (fun x => 'Z' :: strChars x)) ++ [' '] := by
  intro l
  induction l with
  | nil =>
    intro j
    rw [zTokens_cons, zTokens_nil]
    simp [List.intercalate]
  | cons b bs ihb =>
    intro j
    rw [zTokens_cons, ihb b]
    simp only [List.map_cons, List.intercalate, List.intersperse_cons₂,
      List.flatten_cons]
    simp [List.append_assoc]

lemma hamKey_eq_specKey (i : Nat) : hamKey i = specKey i := by
  unfold hamKey specKey
  apply congrArg String.mk
  rcases hA : bitIndices (i + 1) with _ | ⟨j, l⟩
  · exact absurd hA (bitIndices_ne_nil (by omega))
  rw [hamKeyRaw_eq, hA]
  have h1 := pyStrip_zTokens l j
  have h2 := zTokens_eq_intercalate l j
  exact (List.append_left_inj [' ']).mp (h1.trans h2)

lemma ham_closed (nq : Nat) : ∀ dims : Nat,
    GenerateEmbeddingHamiltonian dims nq
      = (List.range dims).map (fun i => (hamKey i, (1 : ℚ))) := by
  intro dims
  induction dims with
  | zero => rfl
  | succ d ihd =>
    have hfold : GenerateEmbeddingHamiltonian (d + 1) nq
        = pyDictInsert (GenerateEmbeddingHamiltonian d nq) (hamKey d) 1 := by
      unfold GenerateEmbeddingHamiltonian
      rw [List.range_succ, List.foldl_append]
      rfl
    rw [hfold, ihd]
    unfold pyDictInsert
    have hnotany : ¬ (((List.range d).map (fun i => (hamKey i, (1 : ℚ)))).any
        (fun p => p.1 == hamKey d) = true) := by
      intro hany
      rcases List.any_eq_true.mp hany with ⟨p, hp, hpk⟩
      rcases List.mem_map.mp hp with ⟨i, hi, hpi⟩
      have hk : hamKey i = hamKey d := by
        rw [← hpi] at hpk
        simpa using hpk
      have h5 := hamKey_inj i d hk
      have h6 := List.mem_range.mp hi
      omega
    rw [if_neg hnotany, List.range_succ, List.map_append]
    rfl

/-! ## C5: the Hamiltonian list has `dims` distinct keys, all values 1.0 -/

/-- C5: for every `dims` (and any `n_qubits`),
`GenerateEmbeddingHamiltonian` returns exactly `dims` entries, each with
value `1.0`; the key of entry `i` is the space-separated concatenation of
`'Z' + str(j)` over the set bits `j` of `i + 1` in little-endian bit
order; and all keys are distinct, so no entry overwrites another. -/
theorem c5_hamiltonian_list (dims n_qubits : Nat) :
    (GenerateEmbeddingHamiltonian dims n_qubits).length = dims ∧
    (∀ p ∈ GenerateEmbeddingHamiltonian dims n_qubits, p.2 = 1) ∧
    (∀ i (hi : i < (GenerateEmbeddingHamiltonian dims n_qubits).length),
      (GenerateEmbeddingHamiltonian dims n_qubits).get ⟨i, hi⟩
        = (specKey i, 1)) ∧
    ((GenerateEmbeddingHamiltonian dims n_qubits).map Prod.fst).Nodup := by
  refine ⟨?_, ?_, ?_, ?_⟩
  · rw [ham_closed, List.length_map, List.length_range]
  · intro p hp
    rw [ham_closed] at hp
    rcases List.mem_map.mp hp with ⟨i, _, rfl⟩
    rfl
  · intro i hi
    rw [List.get_eq_getElem]
    simp only [ham_closed, List.getElem_map, List.getElem_range]
    rw [hamKey_eq_specKey]
  · rw [ham_closed, List.map_map]
    have hcomp : (Prod.fst ∘ fun i : Nat => (hamKey i, (1 : ℚ))) = hamKey := rfl
    rw [hcomp]
    exact List.Nodup.map (fun a b h => hamKey_inj a b h) (List.nodup_range dims)

/-- Witness for C5: the second entry of the `dims = 5` Hamiltonian list. -/
theorem c5_hamiltonian_list_witness :
    (GenerateEmbeddingHamiltonian 5 3).get
        ⟨1, (c5_hamiltonian_list 5 3).1.symm ▸ (by decide : (1 : Nat) < 5)⟩
      = (specKey 1, 1) :=
  (c5_hamiltonian_list 5 3).2.2.1 1 _

/-! ## C9: the Hamiltonian ignores `n_qubits` and can exceed it -/

/-- C9: `GenerateEmbeddingHamiltonian dims n_qubits` does not depend on
`n_qubits`; and whenever `dims ≥ 2^n_qubits` the returned list contains a
key that names a qubit index `j ≥ n_qubits` (the key `'Z' + str(j)` with
`j = n_qubits`, stored for index `i = 2^n_qubits - 1`), with no bounds
check against the circuit's qubit count. -/
theorem c9_hamiltonian_ignores_n_qubits (dims n1 n2 : Nat) :
    GenerateEmbeddingHamiltonian dims n1 = GenerateEmbeddingHamiltonian dims n2 ∧
    (∀ n, 2 ^ n ≤ dims →
      ∃ p ∈ GenerateEmbeddingHamiltonian dims n, ∃ j, n ≤ j ∧
        p.1 = "Z" ++ str10 j) := by
  constructor
  · rfl
  · intro n hn
    have hone : (1 : Nat) ≤ 2 ^ n := Nat.one_le_two_pow
    have hlt : 2 ^ n - 1 < dims := by omega
    refine ⟨(hamKey (2 ^ n - 1), 1), ?_, n, le_refl n, ?_⟩
    · rw [ham_closed]
      exact List.mem_map.mpr ⟨2 ^ n - 1, List.mem_range.mpr hlt, rfl⟩
    · show hamKey (2 ^ n - 1) = "Z" ++ str10 n
      rw [hamKey_eq_specKey]
      unfold specKey
      rw [show 2 ^ n - 1 + 1 = 2 ^ n from by omega, bitIndices_two_pow]
      have hsingle : List.intercalate [' ']
          (([n] : List Nat).map (fun x => 'Z' :: strChars x))
          = 'Z' :: strChars n := by
        simp [List.intercalate]
      rw [hsingle]
      rfl

/-- Witness for C9 at `dims = 8`, `n_qubits = 3`. -/
theorem c9_hamiltonian_ignores_n_qubits_witness :
    ∃ p ∈ GenerateEmbeddingHamiltonian 8 3, ∃ j, 3 ≤ j ∧
      p.1 = "Z" ++ str10 j :=
  (c9_hamiltonian_ignores_n_qubits 8 3 7).2 3 (by decide)

/-! ## C10: `QEmbedding` ignores `embedding_dim` and is `UN(H, n)` plus
alternating no-grad encoder / ansatz blocks -/

/-- C10: the circuit returned by `QEmbedding` does not depend on its
`embedding_dim` argument, and equals `UN(H, n)` with
`n = ceil(log2(num_embedding))` followed, for `w = 0, …, 2*window - 1`,
by the no-grad encoder with prefix `'Encoder_' + str(w)` and the ansatz
with prefix `'Ansatz_' + str(w)` — the initial empty `Circuit()` and the
collected parameter-name lists do not affect the result. -/
theorem c10_qembedding (ne d1 d2 window layers : Nat) (hne : 1 ≤ ne) :
    QEmbedding ne d1 window layers = QEmbedding ne d2 window layers ∧
    (QEmbedding ne d1 window layers).gates =
      (UNH (Nat.clog 2 ne)).gates ++
      ((List.range (2 * window)).map (fun w =>
        ((GenerateEncoderCircuit (Nat.clog 2 ne)
            ("Encoder_" ++ str10 w)).no_grad).gates ++
        (GenerateAnsatzCircuit (Nat.clog 2 ne) layers
            ("Ansatz_" ++ str10 w)).gates)).flatten := by
  refine ⟨rfl, ?_⟩
  have hc : QEmbedding ne d1 window layers =
      (List.range (2 * window)).foldl
        (fun circ w =>
          (circ.append ((GenerateEncoderCircuit (Nat.clog 2 ne)
              ("Encoder_" ++ str10 w)).no_grad)).append
            (GenerateAnsatzCircuit (Nat.clog 2 ne) layers
              ("Ansatz_" ++ str10 w)))
        (UNH (Nat.clog 2 ne)) := rfl
  rw [hc, gates_foldl
    (fun circ w =>
      (circ.append ((GenerateEncoderCircuit (Nat.clog 2 ne)
          ("Encoder_" ++ str10 w)).no_grad)).append
        (GenerateAnsatzCircuit (Nat.clog 2 ne) layers
          ("Ansatz_" ++ str10 w)))
    (fun w =>
      ((GenerateEncoderCircuit (Nat.clog 2 ne)
          ("Encoder_" ++ str10 w)).no_grad).gates ++
      (GenerateAnsatzCircuit (Nat.clog 2 ne) layers
          ("Ansatz_" ++ str10 w)).gates)
    (fun c x => by simp only [Circuit.append, List.append_assoc])]

/-- Witness for C10 at `num_embedding = 4`, two different embedding
dimensions. -/
theorem c10_qembedding_witness :
    1 ≤ 4 ∧ QEmbedding 4 10 1 2 = QEmbedding 4 7 1 2 :=
  ⟨by decide, (c10_qembedding 4 10 7 1 2 (by decide)).1⟩

/-- Witness for C6 at `n_qubits = 2`, prefix `"e"`. -/
theorem c6_encoder_circuit_witness :
    0 < (GenerateEncoderCircuit 2 "e").gates.length ∧
    ((GenerateEncoderCircuit 2 "e").gates.get
        ⟨0, (c6_encoder_circuit 2 "e").1.symm ▸ (by decide : (0:Nat) < 2)⟩).gate
      = Gate.RX ((if ("e":String) = "" ∨ "e".data.getLast? = some '_' then "e"
          else "e" ++ "_") ++ str10 0) 0 := by
  refine ⟨?_, (c6_encoder_circuit 2 "e").2 0 _⟩
  rw [(c6_encoder_circuit 2 "e").1]
  decide

end QuSmoke
